import Mathlib

/-!
Verification of the eso-addon-manager core against its specification.

This file shallowly embeds the Rust source of the repository:
  * `src-tauri/src/utils/version.rs`   — version parsing and ordering
  * `src-tauri/src/utils/zip.rs`       — glob-based exclusion of archive entries
  * `src-tauri/src/services/downloader.rs` — multi-source download fallback
  * `src-tauri/src/services/installer.rs`  — uninstall over a filesystem model
  * `src-tauri/src/services/resolver.rs`   — recursive dependency resolution

Strings are modelled through their character lists (`String.data`); the
character-level operations below mirror the corresponding Rust `str`
operations (for ASCII input they agree exactly; Rust's Unicode
`to_lowercase` is modelled by the ASCII lowercase map, which is how every
slug in the catalog is written).
-/

namespace EsoAddonManager

/-- ASCII lowercase map, modelling Rust `char::to_lowercase` on the ASCII
range used by slugs: maps A..Z to a..z and leaves every other character. -/
def charLower (c : Char) : Char :=
  if 65 ≤ c.toNat ∧ c.toNat ≤ 90 then Char.ofNat (c.toNat + 32) else c

/-- Rust `str::to_lowercase` (ASCII model). -/
def strLower (s : String) : String := ⟨s.data.map charLower⟩

/-- Rust `s.starts_with(p)`. -/
def strStartsWith (s p : String) : Bool := p.data.isPrefixOf s.data

/-- Rust `s.ends_with(p)`. -/
def strEndsWith (s p : String) : Bool := p.data.isSuffixOf s.data

/-- Rust `s.contains(pat)` for a substring pattern. -/
def listContainsSub (pat : List Char) : List Char → Bool
  | [] => pat.isPrefixOf []
  | c :: t => pat.isPrefixOf (c :: t) || listContainsSub pat t

/-- Rust `s.contains(pat)` on strings. -/
def strContainsSub (s pat : String) : Bool := listContainsSub pat.data s.data

/-- Rust `s.split(sep).next().unwrap_or(..)`: the text before the first
separator (the whole string when the separator does not occur). -/
def strBase (s : String) : String := ⟨s.data.takeWhile (fun c => c ≠ '-')⟩

/-- Rust `str::trim` (whitespace from both ends). -/
def trimChars (cs : List Char) : List Char :=
  ((cs.dropWhile Char.isWhitespace).reverse.dropWhile Char.isWhitespace).reverse

/-- Rust `str::trim` on strings. -/
def strTrim (s : String) : String := ⟨trimChars s.data⟩

/-- Rust `s.split(sep)` : every segment between separators, keeping empty
segments (so `"".split('.')` is `[""]` and `"a..b".split('.')` is
`["a", "", "b"]`). -/
def splitCharList (sep : Char) : List Char → List (List Char)
  | [] => [[]]
  | c :: rest =>
    if c = sep then [] :: splitCharList sep rest
    else
      match splitCharList sep rest with
      | seg :: segs => (c :: seg) :: segs
      | [] => [[c]]

/-- Rust `s.split(sep)` on strings. -/
def strSplitChar (sep : Char) (s : String) : List String :=
  (splitCharList sep s.data).map (fun cs => ⟨cs⟩)

/-- Rust `str::parse::<u32>()`: an optional leading `+`, then one or more
ASCII digits, and the value must fit in a `u32`; anything else fails. -/
def parseU32 (s : String) : Option Nat :=
  let digits := match s.data with
    | '+' :: rest => rest
    | other => other
  if digits ≠ [] ∧ digits.all Char.isDigit then
    let n := digits.foldl (fun acc c => acc * 10 + (c.toNat - 48)) 0
    if n < 4294967296 then some n else none
  else none

/-! ## Version parsing and ordering (`utils/version.rs`) -/

/-- The `Version` struct from `utils/version.rs`. -/
structure Version where
  components : List Nat
  prerelease : Option String
  original : String
  isBranch : Bool
  deriving DecidableEq, Repr

/-- Lines 42-47 of `version.rs`: strip one optional leading `v`/`V`/`r`/`R`. -/
def stripVersionLetter (s : String) : String :=
  match s.data with
  | c :: rest =>
    if c = 'v' ∨ c = 'V' ∨ c = 'r' ∨ c = 'R' then ⟨rest⟩ else s
  | [] => s

/-- Lines 50-59 of `version.rs`: split the cleaned text into the numeric
body and the prerelease tag.  The code looks for the first `-` first; only
when none occurs does it look for the first `+` (discarding that suffix). -/
def splitBody (cleaned : String) : String × Option String :=
  let cs := cleaned.data
  if cs.contains '-' then
    (⟨cs.takeWhile (fun c => c ≠ '-')⟩, some ⟨(cs.dropWhile (fun c => c ≠ '-')).tail⟩)
  else if cs.contains '+' then
    (⟨cs.takeWhile (fun c => c ≠ '+')⟩, none)
  else
    (cleaned, none)

/-- Models `Version::parse` from `utils/version.rs` lines 27-73. -/
def Version.parse (versionStr : String) : Version :=
  let original := versionStr
  let trimmed := strTrim versionStr
  if strEndsWith trimmed "-latest" || strContainsSub trimmed "-branch" then
    { components := [], prerelease := none, original := original, isBranch := true }
  else
    let cleaned := stripVersionLetter trimmed
    let (versionPart, prerelease) := splitBody cleaned
    let components := (strSplitChar '.' versionPart).filterMap parseU32
    { components := components, prerelease := prerelease,
      original := original, isBranch := false }

/-- Comparing missing left components (all 0) against remaining right ones. -/
def cmpZerosLeft : List Nat → Ordering
  | [] => .eq
  | y :: ys =>
    match compare 0 y with
    | .eq => cmpZerosLeft ys
    | o => o

/-- Comparing remaining left components against missing right ones (all 0). -/
def cmpZerosRight : List Nat → Ordering
  | [] => .eq
  | x :: xs =>
    match compare x 0 with
    | .eq => cmpZerosRight xs
    | o => o

/-- The numeric-component loop of `Ord for Version` (version.rs lines
99-107): pairwise left-to-right, a missing trailing component counts as 0. -/
def cmpComponents : List Nat → List Nat → Ordering
  | [], ys => cmpZerosLeft ys
  | x :: xs, [] =>
    match compare x 0 with
    | .eq => cmpZerosRight xs
    | o => o
  | x :: xs, y :: ys =>
    match compare x y with
    | .eq => cmpComponents xs ys
    | o => o

/-- Lexicographic comparison of character lists by code point, modelling
Rust's `String` ordering (UTF-8 byte order equals code-point order). -/
def cmpCharList : List Char → List Char → Ordering
  | [], [] => .eq
  | [], _ :: _ => .lt
  | _ :: _, [] => .gt
  | a :: as', b :: bs =>
    match compare a.toNat b.toNat with
    | .eq => cmpCharList as' bs
    | o => o

/-- Prerelease comparison (version.rs lines 111-116): absence ranks above
presence, two tags compare lexicographically. -/
def cmpPrerelease : Option String → Option String → Ordering
  | none, some _ => .gt
  | some _, none => .lt
  | some a, some b => cmpCharList a.data b.data
  | none, none => .eq

/-- Models `Ord for Version` (version.rs lines 87-118). -/
def Version.cmp (a b : Version) : Ordering :=
  if a.isBranch && b.isBranch then .eq
  else if a.isBranch && !b.isBranch then .lt
  else if !a.isBranch && b.isBranch then .gt
  else
    match cmpComponents a.components b.components with
    | .eq => cmpPrerelease a.prerelease b.prerelease
    | o => o

/-- Models `Version::is_newer_than` (version.rs lines 76-78). -/
def Version.isNewerThan (a b : Version) : Bool :=
  Version.cmp a b == .gt

/-- Models `is_update_available` (version.rs lines 121-126). -/
def is_update_available (installed available : String) : Bool :=
  (Version.parse available).isNewerThan (Version.parse installed)

/-! ## Glob exclusion (`utils/zip.rs`) -/

/-- Models `matches_glob_pattern` (zip.rs lines 126-152). -/
def matches_glob_pattern (name pattern : String) : Bool :=
  if name == pattern then true
  else if pattern == ".*" && strStartsWith name "." then true
  else if strStartsWith pattern "*." && strEndsWith name ⟨'.' :: pattern.data.drop 2⟩ then true
  else if strStartsWith pattern "*" && !(pattern.data.tail.isEmpty)
      && strEndsWith name ⟨pattern.data.tail⟩ then true
  else false

/-- Models `should_exclude` (zip.rs lines 112-122); the remapped entry path is
given by its components. -/
def should_exclude (components : List String) (excludes : List String) : Bool :=
  components.any (fun c => excludes.any (fun p => matches_glob_pattern c p))

/-- The spec's description of a component/pattern match (spec §4.2
"Exclusion"), stated independently of the code: exact name match, `.*`
for hidden names, `*.ext` for a suffix after a dot, and generic `*suffix`
with a non-empty trailing substring. -/
def globMatchSpec (c p : String) : Prop :=
  c = p
  ∨ (p = ".*" ∧ strStartsWith c "." = true)
  ∨ (∃ ext : String, p = "*." ++ ext ∧ strEndsWith c ("." ++ ext) = true)
  ∨ (∃ suffix : String, suffix ≠ "" ∧ p = "*" ++ suffix ∧ strEndsWith c suffix = true)

/-! ## Download fallback (`services/downloader.rs`) -/

/-- The `DownloadSource` struct from `models/index.rs`. -/
structure DownloadSource where
  sourceType : String
  url : String
  note : Option String := none
  deriving DecidableEq, Repr

/-- Error kinds from `error.rs` that the modelled code can produce. -/
inductive AppError where
  | Network : String → AppError
  | Archive : String → AppError
  | InvalidManifest : String → AppError
  | AddonNotFound : String → AppError
  | Download : String → AppError
  | FileSystem : String → AppError
  deriving DecidableEq, Repr

/-- One `for` loop of `download_with_fallback`: each attempt is a URL
paired with the error-message prefix used when it fails.  `fetch url`
models `download_file`: `none` is success, `some e` a failure with
display text `e`.  Returns `none` on the first success (the Rust early
`return Ok`), else `some lastError` after exhausting the list. -/
def tryDownloadLoop (fetch : String → Option String) :
    List (String × String) → Option String → Option (Option String)
  | [], lastError => some lastError
  | (url, msgPre) :: rest, _lastError =>
    match fetch url with
    | none => none
    | some e => tryDownloadLoop fetch rest (some (msgPre ++ e))

/-- Models `download_with_fallback` (downloader.rs lines 47-109): archive-typed
sources first, then remaining sources with `.zip` URLs, then the legacy
fallback URL; the byte sink and progress callback are irrelevant to the
selection logic and are dropped from the model. -/
def download_with_fallback (fetch : String → Option String)
    (sources : List DownloadSource) (fallbackUrl : Option String) : Except AppError Unit :=
  let archiveAttempts :=
    (sources.filter (fun s => s.sourceType == "github_archive")).map
      (fun s => (s.url, s.sourceType ++ " download failed: "))
  match tryDownloadLoop fetch archiveAttempts none with
  | none => .ok ()
  | some last1 =>
    let otherAttempts :=
      ((sources.filter (fun s => s.sourceType != "github_archive")).filter
        (fun s => strEndsWith s.url ".zip")).map
        (fun s => (s.url, s.sourceType ++ " download failed: "))
    match tryDownloadLoop fetch otherAttempts last1 with
    | none => .ok ()
    | some last2 =>
      match fallbackUrl with
      | some url =>
        match fetch url with
        | none => .ok ()
        | some e => .error (.Download ("Fallback download failed: " ++ e))
      | none => .error (.Download (last2.getD "All download sources failed"))

/-- The full, ordered list of download candidates the code may attempt:
every `github_archive` source in listed order, then every other source
whose URL ends in `.zip` in listed order, then the legacy fallback. -/
def downloadCandidates (sources : List DownloadSource) (fallbackUrl : Option String) :
    List (String × String) :=
  (sources.filter (fun s => s.sourceType == "github_archive")).map
      (fun s => (s.url, s.sourceType ++ " download failed: "))
    ++ ((sources.filter (fun s => s.sourceType != "github_archive")).filter
        (fun s => strEndsWith s.url ".zip")).map
        (fun s => (s.url, s.sourceType ++ " download failed: "))
    ++ (match fallbackUrl with
        | some u => [(u, "Fallback download failed: ")]
        | none => [])

/-! ## Uninstall (`services/installer.rs`)

The filesystem is modelled as the list of existing nodes, each node a
path given by its components; an ancestor of a recorded node is recorded
too.  `fs::remove_dir_all` removes a path and everything beneath it and
`Path::exists` is membership. -/

/-- Models `Path::exists` on the filesystem model. -/
def pathExists (fs : List (List String)) (p : List String) : Bool :=
  fs.contains p

/-- Models `fs::remove_dir_all` on the filesystem model: drop the path and every
path beneath it. -/
def remove_dir_all (fs : List (List String)) (p : List String) : List (List String) :=
  fs.filter (fun q => !(p.isPrefixOf q))

/-- Models `uninstall_addon` (installer.rs lines 91-96). -/
def uninstall_addon (fs : List (List String)) (addonPath : List String) :
    Except AppError (List (List String)) :=
  if pathExists fs addonPath then .ok (remove_dir_all fs addonPath) else .ok fs

/-! ## Dependency resolution (`services/resolver.rs`) -/

/-- The `InstallInfo` struct from `models/index.rs`. -/
structure InstallInfo where
  method : String
  extractPath : Option String := none
  targetFolder : String
  excludes : List String := []
  deriving DecidableEq, Repr

/-- The `AddonSource` struct from `models/index.rs`. -/
structure AddonSource where
  sourceType : String
  repo : String
  branch : String
  path : Option String := none
  deriving DecidableEq, Repr

/-- The `AddonCompatibility` struct from `models/index.rs`. -/
structure AddonCompatibility where
  apiVersion : Option String := none
  gameVersions : List String := []
  requiredDependencies : List String
  optionalDependencies : List String := []
  deriving DecidableEq, Repr

/-- The `AddonRelease` struct from `models/index.rs`. -/
structure AddonRelease where
  version : String
  downloadUrl : String
  publishedAt : Option String := none
  fileSize : Option Nat := none
  checksum : Option String := none
  commitSha : Option String := none
  commitDate : Option String := none
  commitMessage : Option String := none
  deriving DecidableEq, Repr

/-- The `IndexAddon` struct from `models/index.rs` (fields not read by the resolver
are omitted: description, authors, license, tags, url, version_info,
download_sources, last_updated). -/
structure IndexAddon where
  slug : String
  name : String
  source : AddonSource
  compatibility : AddonCompatibility
  install : InstallInfo
  latestRelease : Option AddonRelease := none
  deriving DecidableEq, Repr

/-- The `AddonIndex` struct from `models/index.rs`. -/
structure AddonIndex where
  version : String
  generatedAt : String
  addonCount : Nat
  addons : List IndexAddon
  fetchedAt : Option String := none
  deriving DecidableEq, Repr

/-- The `InstalledAddon` struct from `models/addon.rs` (fields the resolver never
reads are omitted: id, name, installed_version, source_type, source_repo,
timestamps, auto_update). -/
structure InstalledAddon where
  slug : String
  manifestPath : String
  deriving DecidableEq, Repr

/-- The `ResolvedDependency` struct from `services/resolver.rs`. -/
structure ResolvedDependency where
  slug : String
  name : String
  version : String
  downloadUrl : String
  installInfo : InstallInfo
  depth : Nat
  deriving DecidableEq, Repr

/-- The `DependencyResult` struct from `services/resolver.rs`. -/
structure DependencyResult where
  resolved : List ResolvedDependency
  alreadyInstalled : List String
  unresolved : List String
  deriving DecidableEq, Repr

/-- resolver.rs lines 79-88: the folder name of an installed manifest
path, `PathBuf::parent` then `file_name` (Unix separators, without the
path normalization Rust applies to repeated separators). -/
def folderOfManifestPath (p : String) : Option String :=
  match (splitCharList '/' p.data).dropLast.getLast? with
  | some cs => if cs = [] ∨ cs = ['.'] ∨ cs = ['.', '.'] then none else some ⟨cs⟩
  | none => none

/-- Models `is_installed` (resolver.rs lines 203-233). -/
def is_installed (slug : String) (installedSlugs installedFolders : List String) : Bool :=
  let slugLower := strLower slug
  if installedSlugs.contains slugLower then true
  else if installedFolders.contains slugLower then true
  else
    let baseSlug := strBase slugLower
    installedSlugs.any (fun s => strStartsWith s baseSlug || strStartsWith baseSlug s)
      || installedFolders.any (fun f => strStartsWith f baseSlug || strStartsWith baseSlug f)

/-- resolver.rs lines 70-72: the slug-keyed `HashMap` built from the index
list; a later entry with the same slug overwrites an earlier one.  (The
map's iteration order is unspecified in Rust; this model fixes one.) -/
def indexEntries (addons : List IndexAddon) : List IndexAddon :=
  addons.foldl (fun acc a => acc.filter (fun b => b.slug ≠ a.slug) ++ [a]) []

/-- Models `find_in_index` (resolver.rs lines 236-265): exact slug match, then
case-insensitive match, then match after stripping a `-version` suffix
from both sides. -/
def find_in_index (slug : String) (entries : List IndexAddon) : Option IndexAddon :=
  match entries.find? (fun a => a.slug == slug) with
  | some a => some a
  | none =>
    let slugLower := strLower slug
    match entries.find? (fun a => strLower a.slug == slugLower) with
    | some a => some a
    | none =>
      let baseSlug := strBase slugLower
      entries.find? (fun a => strBase (strLower a.slug) == baseSlug)

/-- resolver.rs lines 142-156: the download URL of an index addon — the
latest release's URL, else a synthesized branch zipball URL for
github-sourced addons. -/
def releaseDownloadUrl (a : IndexAddon) : Option String :=
  match a.latestRelease with
  | some r => some r.downloadUrl
  | none =>
    if a.source.sourceType == "github" then
      some ("https://api.github.com/repos/" ++ a.source.repo ++ "/zipball/" ++ a.source.branch)
    else none

/-- resolver.rs lines 159-163: the version recorded for a resolved addon. -/
def resolvedVersionOf (a : IndexAddon) : String :=
  match a.latestRelease with
  | some r => r.version
  | none => a.source.branch ++ "-latest"

/-- The classification of one dependency slug inside `resolve_recursive`:
already installed (lines 131-137), resolvable with a download URL (lines
139-186), or unresolved (lines 187-198). -/
inductive DepClass where
  | installed : DepClass
  | resolvable : IndexAddon → String → DepClass
  | unres : DepClass

/-- Which branch of `resolve_recursive` a dependency slug takes. -/
def classifyDep (entries : List IndexAddon) (installedSlugs installedFolders : List String)
    (dep : String) : DepClass :=
  if is_installed (strLower dep) installedSlugs installedFolders then .installed
  else
    match find_in_index dep entries with
    | some addon =>
      match releaseDownloadUrl addon with
      | some url => .resolvable addon url
      | none => .unres
    | none => .unres

/-- resolver.rs lines 133-135: guarded push onto `already_installed`. -/
def pushAlready (dep : String) (result : DependencyResult) : DependencyResult :=
  if result.alreadyInstalled.contains dep then result
  else { result with alreadyInstalled := result.alreadyInstalled ++ [dep] }

/-- resolver.rs lines 189-197: guarded push onto `unresolved`. -/
def pushUnresolved (dep : String) (result : DependencyResult) : DependencyResult :=
  if result.unresolved.contains dep then result
  else { result with unresolved := result.unresolved ++ [dep] }

/-- resolver.rs lines 166-175: guarded push onto `resolved`. -/
def pushResolved (addon : IndexAddon) (url : String) (depth : Nat)
    (result : DependencyResult) : DependencyResult :=
  if result.resolved.any (fun r => r.slug == addon.slug) then result
  else
    { result with
      resolved := result.resolved ++
        [{ slug := addon.slug, name := addon.name, version := resolvedVersionOf addon,
           downloadUrl := url, installInfo := addon.install, depth := depth }] }

/-- Models `resolve_recursive` (resolver.rs lines 113-200).  The Rust function
recurses without a bound; here a fuel argument is decremented on every
recursive call so the definition is structural (and therefore evaluates
in the kernel).  `resolve_recursive_stabilizes` below proves that beyond
the fuel budget used by `resolve_dependencies` the result no longer
depends on the fuel, which is exactly the termination of the unbounded
Rust recursion. -/
def resolve_recursive (entries : List IndexAddon)
    (installedSlugs installedFolders : List String) :
    Nat → List String → Nat → List String → DependencyResult →
      List String × DependencyResult
  | 0, _, _, visited, result => (visited, result)
  | _ + 1, [], _, visited, result => (visited, result)
  | fuel + 1, dep :: rest, depth, visited, result =>
    let slugLower := strLower dep
    if visited.contains slugLower then
      resolve_recursive entries installedSlugs installedFolders fuel rest depth visited result
    else
      let visited' := slugLower :: visited
      match classifyDep entries installedSlugs installedFolders dep with
      | .installed =>
        resolve_recursive entries installedSlugs installedFolders fuel rest depth visited'
          (pushAlready dep result)
      | .resolvable addon url =>
        let vr := resolve_recursive entries installedSlugs installedFolders fuel
          addon.compatibility.requiredDependencies (depth + 1) visited'
          (pushResolved addon url depth result)
        resolve_recursive entries installedSlugs installedFolders fuel rest depth vr.1 vr.2
      | .unres =>
        resolve_recursive entries installedSlugs installedFolders fuel rest depth visited'
          (pushUnresolved dep result)

/-- Stable insertion of a resolved dependency into a list already sorted
by descending depth: it goes after every element of greater or equal
depth.  Folding this over the discovery order models `sort_by(|a, b|
b.depth.cmp(&a.depth))` (resolver.rs line 107), which is a stable sort. -/
def insertByDepth (r : ResolvedDependency) : List ResolvedDependency → List ResolvedDependency
  | [] => [r]
  | x :: xs => if r.depth ≤ x.depth then x :: insertByDepth r xs else r :: x :: xs

/-- resolver.rs line 107: stable sort of `resolved` by descending depth. -/
def sortByDepthDesc (l : List ResolvedDependency) : List ResolvedDependency :=
  l.foldl (fun acc r => insertByDepth r acc) []

/-- The lowercase forms of every dependency slug named anywhere in the
index: the set the visited set can draw growth from. -/
def depsUniverse (addons : List IndexAddon) : Finset String :=
  ((addons.flatMap (fun a => a.compatibility.requiredDependencies)).map strLower).toFinset

/-- The longest required-dependency list of any addon in the index. -/
def maxDepsLen (addons : List IndexAddon) : Nat :=
  addons.foldr (fun a m => max a.compatibility.requiredDependencies.length m) 0

/-- How many universe slugs the visited set has not yet absorbed. -/
def remainingCount (addons : List IndexAddon) (visited : List String) : Nat :=
  ((depsUniverse addons).filter (fun u => visited.contains u = false)).card

/-- A fuel budget sufficient for `resolve_recursive` never to hit its
fuel cutoff (proved by `resolve_recursive_stabilizes`). -/
def defaultFuel (addons : List IndexAddon) (deps : List String) (visited : List String) : Nat :=
  deps.length + (maxDepsLen addons + 1) * remainingCount addons visited

/-- Models `resolve_dependencies` (resolver.rs lines 54-110) at an explicit fuel. -/
def resolveDependenciesFuel (fuel : Nat) (slug : String) (index : AddonIndex)
    (installed : List InstalledAddon) : DependencyResult :=
  match index.addons.find? (fun a => a.slug == slug) with
  | none => { resolved := [], alreadyInstalled := [], unresolved := [] }
  | some addon =>
    let entries := indexEntries index.addons
    let installedSlugs := installed.map (fun a => strLower a.slug)
    let installedFolders :=
      (installed.filterMap (fun a => folderOfManifestPath a.manifestPath)).map strLower
    let vr := resolve_recursive entries installedSlugs installedFolders fuel
      addon.compatibility.requiredDependencies 0 [slug]
      { resolved := [], alreadyInstalled := [], unresolved := [] }
    { vr.2 with resolved := sortByDepthDesc vr.2.resolved }

/-- The fuel budget `resolve_dependencies` runs with. -/
def defaultFuelFor (slug : String) (index : AddonIndex) : Nat :=
  match index.addons.find? (fun a => a.slug == slug) with
  | none => 0
  | some addon => defaultFuel index.addons addon.compatibility.requiredDependencies [slug]

/-- Models `resolve_dependencies` (resolver.rs lines 54-110). -/
def resolve_dependencies (slug : String) (index : AddonIndex)
    (installed : List InstalledAddon) : DependencyResult :=
  resolveDependenciesFuel (defaultFuelFor slug index) slug index installed

/-! ## Concrete catalogs used as test inputs

`mkTestAddon` mirrors `create_test_addon` from the resolver's own test
module (resolver.rs lines 272-312). -/

/-- An index addon shaped like the repository's own test fixture. -/
def mkTestAddon (slug name : String) (deps : List String) : IndexAddon :=
  { slug := slug, name := name,
    source := { sourceType := "github", repo := "test/repo", branch := "main" },
    compatibility := { requiredDependencies := deps },
    install := { method := "branch", targetFolder := slug },
    latestRelease := some { version := "1.0.0",
                            downloadUrl := "https://example.com/" ++ slug ++ ".zip" } }

/-- Catalog where the root requires `y` and `m`, `m` requires `x`, and
`x` requires `y`: `y` is discovered at depth 0 but `x`, which depends on
it, only at depth 1. -/
def diamondIndex : AddonIndex :=
  { version := "1.0", generatedAt := "2024-01-01", addonCount := 4,
    addons := [mkTestAddon "root" "Root" ["y", "m"],
               mkTestAddon "y" "Y" [],
               mkTestAddon "m" "M" ["x"],
               mkTestAddon "x" "X" ["y"]] }

/-- Catalog with a dependency cycle: `a` requires `b` and `b` requires `a`. -/
def cycleIndex : AddonIndex :=
  { version := "1.0", generatedAt := "2024-01-01", addonCount := 2,
    addons := [mkTestAddon "a" "A" ["b"],
               mkTestAddon "b" "B" ["a"]] }

/-- The invariant `resolve_recursive` maintains on its accumulated
`DependencyResult`: no list repeats a slug; every `already_installed`
entry passes the installed test; every `unresolved` entry fails it and no
catalog entry with that exact slug has a usable download URL; every
`resolved` entry fails it and stems from a catalog entry with that exact
slug and a usable download URL. -/
def ResultInv (entries : List IndexAddon) (instS instF : List String)
    (r : DependencyResult) : Prop :=
  (r.resolved.map (fun d => d.slug)).Nodup
  ∧ r.alreadyInstalled.Nodup
  ∧ r.unresolved.Nodup
  ∧ (∀ s ∈ r.alreadyInstalled, is_installed (strLower s) instS instF = true)
  ∧ (∀ s ∈ r.unresolved, is_installed (strLower s) instS instF = false
      ∧ ∀ a ∈ entries, a.slug = s → releaseDownloadUrl a = none)
  ∧ (∀ d ∈ r.resolved, is_installed (strLower d.slug) instS instF = false
      ∧ ∃ a ∈ entries, a.slug = d.slug ∧ releaseDownloadUrl a ≠ none)

/-! ## Lemmas about the version order -/

theorem cmpZerosLeft_replicate (k : Nat) : cmpZerosLeft (List.replicate k 0) = .eq := by
  induction k with
  | zero => rfl
  | succ k ih => simpa [List.replicate_succ, cmpZerosLeft] using ih

theorem cmpZerosRight_replicate (k : Nat) : cmpZerosRight (List.replicate k 0) = .eq := by
  induction k with
  | zero => rfl
  | succ k ih => simpa [List.replicate_succ, cmpZerosRight] using ih

theorem cmpZerosLeft_append_replicate (t : List Nat) (k : Nat) :
    cmpZerosLeft (t ++ List.replicate k 0) = cmpZerosLeft t := by
  induction t with
  | nil => simpa using cmpZerosLeft_replicate k
  | cons y u ih =>
    simp only [List.cons_append, cmpZerosLeft]
    cases compare 0 y <;> simp [ih]

theorem cmpZerosRight_append_replicate (t : List Nat) (k : Nat) :
    cmpZerosRight (t ++ List.replicate k 0) = cmpZerosRight t := by
  induction t with
  | nil => simpa using cmpZerosRight_replicate k
  | cons x u ih =>
    simp only [List.cons_append, cmpZerosRight]
    cases compare x 0 <;> simp [ih]

theorem cmpComponents_nil_right (u : List Nat) : cmpComponents u [] = cmpZerosRight u := by
  cases u <;> rfl

theorem cmpComponents_replicate_right (t : List Nat) (k : Nat) :
    cmpComponents t (List.replicate k 0) = cmpComponents t [] := by
  induction t generalizing k with
  | nil => simpa [cmpComponents] using cmpZerosLeft_replicate k
  | cons x u ih =>
    cases k with
    | zero => rfl
    | succ j =>
      rw [List.replicate_succ]
      simp only [cmpComponents, cmpComponents_nil_right]
      cases compare x 0 <;> simp [ih j, cmpComponents_nil_right]

theorem cmpComponents_replicate_left (t : List Nat) (k : Nat) :
    cmpComponents (List.replicate k 0) t = cmpComponents [] t := by
  induction t generalizing k with
  | nil =>
    rw [cmpComponents_nil_right, cmpZerosRight_replicate]
    rfl
  | cons y u ih =>
    cases k with
    | zero => rfl
    | succ j =>
      rw [List.replicate_succ]
      simp only [cmpComponents, cmpZerosLeft]
      cases compare 0 y <;> simp [ih j, cmpComponents]

theorem cmpComponents_append_zeros_right (xs ys : List Nat) (k : Nat) :
    cmpComponents xs (ys ++ List.replicate k 0) = cmpComponents xs ys := by
  induction xs generalizing ys with
  | nil => simpa [cmpComponents] using cmpZerosLeft_append_replicate ys k
  | cons x t ih =>
    cases ys with
    | nil => simpa using cmpComponents_replicate_right (x :: t) k
    | cons y u =>
      simp only [List.cons_append, cmpComponents]
      cases compare x y <;> simp [ih]

theorem cmpComponents_append_zeros_left (xs ys : List Nat) (k : Nat) :
    cmpComponents (xs ++ List.replicate k 0) ys = cmpComponents xs ys := by
  induction xs generalizing ys with
  | nil => simpa [cmpComponents] using cmpComponents_replicate_left ys k
  | cons x t ih =>
    cases ys with
    | nil =>
      simp only [List.nil_append, cmpComponents_nil_right]
      simpa [cmpComponents_nil_right] using cmpZerosRight_append_replicate (x :: t) k
    | cons y u =>
      simp only [List.cons_append, cmpComponents]
      cases compare x y <;> simp [ih]

theorem ordering_beq_gt_iff (o : Ordering) : (o == Ordering.gt) = true ↔ o = Ordering.gt := by
  cases o <;> decide

/-! ## Claim theorems: version comparison -/

/-- C5 (confirmed): `is_update_available(installed, candidate)` returns
true iff the parsed candidate ranks strictly greater than the parsed
installed version, under the order whose numeric components are compared
pairwise left-to-right with missing trailing components treated as 0; in
particular `"1.2"` compares equal to `"1.2.0"`,
`is_update_available "1.0" "1.0.1" = true` and
`is_update_available "1.0.1" "1.0" = false`. -/
theorem claim_C5_update_available_iff_greater :
    (∀ installed available : String,
      is_update_available installed available = true ↔
        Version.cmp (Version.parse available) (Version.parse installed) = .gt)
    ∧ (∀ xs ys : List Nat, ∀ k : Nat,
        cmpComponents xs (ys ++ List.replicate k 0) = cmpComponents xs ys)
    ∧ (∀ xs ys : List Nat, ∀ k : Nat,
        cmpComponents (xs ++ List.replicate k 0) ys = cmpComponents xs ys)
    ∧ Version.cmp (Version.parse "1.2") (Version.parse "1.2.0") = .eq
    ∧ is_update_available "1.0" "1.0.1" = true
    ∧ is_update_available "1.0.1" "1.0" = false := by
  refine ⟨?_, cmpComponents_append_zeros_right, cmpComponents_append_zeros_left,
    by decide, by decide, by decide⟩
  intro installed available
  simp only [is_update_available, Version.isNewerThan]
  exact ordering_beq_gt_iff _

/-- C6 (confirmed): a branch version compares strictly below every
non-branch version, two branch versions compare equal, and consequently
`is_update_available` reports every concrete version as an update over a
branch-version string. -/
theorem claim_C6_branch_below_everything :
    (∀ a b : Version, a.isBranch = true → b.isBranch = false → Version.cmp a b = .lt)
    ∧ (∀ a b : Version, a.isBranch = true → b.isBranch = true → Version.cmp a b = .eq)
    ∧ (∀ b v : String, (Version.parse b).isBranch = true → (Version.parse v).isBranch = false →
        is_update_available b v = true) := by
  refine ⟨?_, ?_, ?_⟩
  · intro a b ha hb; simp [Version.cmp, ha, hb]
  · intro a b ha hb; simp [Version.cmp, ha, hb]
  · intro b v hb hv
    simp only [is_update_available, Version.isNewerThan]
    rw [ordering_beq_gt_iff]
    simp [Version.cmp, hb, hv]

/-- Witness for C6 at `"main-latest"` and `"0.0.1"`. -/
theorem claim_C6_witness :
    (Version.parse "main-latest").isBranch = true
    ∧ (Version.parse "0.0.1").isBranch = false
    ∧ is_update_available "main-latest" "0.0.1" = true :=
  ⟨by decide, by decide,
    claim_C6_branch_below_everything.2.2 "main-latest" "0.0.1" (by decide) (by decide)⟩

/-- C2 (corrected), counterexample: on `"1.2.3+build-x"` the parser does
not discard the `+` suffix first; it splits at the first `-`, so the
components are `[1, 2]` (not `[1, 2, 3]`) and the prerelease tag is
`"x"` (not absent). -/
theorem claim_C2_counterexample :
    (Version.parse "1.2.3+build-x").components = [1, 2]
    ∧ (Version.parse "1.2.3+build-x").prerelease = some "x"
    ∧ ¬((Version.parse "1.2.3+build-x").components = [1, 2, 3]
        ∧ (Version.parse "1.2.3+build-x").prerelease = none) := by
  refine ⟨by decide, by decide, ?_⟩
  intro h
  exact absurd h.1 (by decide)

/-- C2 (corrected), amended claim: version parsing splits the cleaned
text at the first `-` to take a prerelease tag; only when no `-` occurs
does it split at the first `+` and discard that suffix.  Hence for
`"1.2.3+build-x"` parse returns components `[1, 2]` (the segment
`"3+build"` fails numeric parsing and is dropped) and prerelease `"x"`. -/
theorem claim_C2_amended_minus_before_plus :
    (∀ s : String, s.data.contains '-' = true →
      splitBody s =
        (⟨s.data.takeWhile (fun c => c ≠ '-')⟩, some ⟨(s.data.dropWhile (fun c => c ≠ '-')).tail⟩))
    ∧ (∀ s : String, s.data.contains '-' = false → s.data.contains '+' = true →
      splitBody s = (⟨s.data.takeWhile (fun c => c ≠ '+')⟩, none))
    ∧ Version.parse "1.2.3+build-x" =
      { components := [1, 2], prerelease := some "x",
        original := "1.2.3+build-x", isBranch := false } := by
  refine ⟨?_, ?_, by decide⟩
  · intro s h
    have h' : '-' ∈ s.data := by simpa using h
    simp [splitBody, h']
  · intro s h1 h2
    have h1' : '-' ∉ s.data := by simpa using h1
    have h2' : '+' ∈ s.data := by simpa using h2
    simp [splitBody, h1', h2']

/-- Witness for the amended C2 at the counterexample input. -/
theorem claim_C2_amended_witness :
    splitBody "1.2.3+build-x" = ("1.2.3+build", some "x") :=
  Eq.trans (claim_C2_amended_minus_before_plus.1 "1.2.3+build-x" (by decide)) (by decide)

/-! ## String helper lemmas -/

theorem strAppend_data (a b : String) : (a ++ b).data = a.data ++ b.data := rfl

theorem string_eq_of_data {a b : String} (h : a.data = b.data) : a = b := by
  cases a
  cases b
  exact congrArg String.mk h

theorem isPrefixOf_cons_elim {a : Char} {pre l : List Char}
    (h : List.isPrefixOf (a :: pre) l = true) :
    ∃ t, l = a :: t ∧ List.isPrefixOf pre t = true := by
  cases l with
  | nil => simp at h
  | cons b t =>
    rw [List.isPrefixOf_cons₂, Bool.and_eq_true] at h
    exact ⟨t, by rw [eq_of_beq h.1], h.2⟩

theorem isPrefixOf_self {α : Type} [BEq α] [LawfulBEq α] (l : List α) :
    l.isPrefixOf l = true := by
  induction l with
  | nil => simp
  | cons a t ih => simp [List.isPrefixOf_cons₂, ih]

theorem contains_eq_false_of_not_mem {α : Type} [BEq α] [LawfulBEq α] {l : List α} {a : α}
    (h : a ∉ l) : l.contains a = false := by
  rw [Bool.eq_false_iff]
  intro hc
  exact h ((List.elem_iff).mp hc)

theorem startsWith_star_dot_elim {p : String} (h : strStartsWith p "*." = true) :
    p = "*." ++ (⟨p.data.drop 2⟩ : String) := by
  unfold strStartsWith at h
  have h2 : List.isPrefixOf ['*', '.'] p.data = true := h
  obtain ⟨t1, ht1, h3⟩ := isPrefixOf_cons_elim h2
  obtain ⟨t2, ht2, _⟩ := isPrefixOf_cons_elim h3
  apply string_eq_of_data
  rw [strAppend_data, ht1, ht2]
  rfl

theorem startsWith_star_elim {p : String} (h : strStartsWith p "*" = true) :
    p = "*" ++ (⟨p.data.tail⟩ : String) := by
  unfold strStartsWith at h
  have h2 : List.isPrefixOf ['*'] p.data = true := h
  obtain ⟨t1, ht1, _⟩ := isPrefixOf_cons_elim h2
  apply string_eq_of_data
  rw [strAppend_data, ht1]
  rfl

/-! ## Claim theorem: glob exclusion -/

theorem matches_glob_eq_or (c p : String) : matches_glob_pattern c p =
    ((c == p) || (p == ".*" && strStartsWith c ".")
     || (strStartsWith p "*." && strEndsWith c ⟨'.' :: p.data.drop 2⟩)
     || (strStartsWith p "*" && !(p.data.tail.isEmpty) && strEndsWith c ⟨p.data.tail⟩)) := by
  unfold matches_glob_pattern
  split_ifs with g1 g2 g3 g4
  · simp [g1]
  · simp [g2]
  · simp [g3]
  · simp [g4]
  · simp at g1 g2 g3 g4
    simp [g1, g2, g3, g4]
    exact ⟨⟨g2, g3⟩, g4⟩

theorem matches_glob_iff (c p : String) :
    matches_glob_pattern c p = true ↔ globMatchSpec c p := by
  rw [matches_glob_eq_or]
  simp only [Bool.or_eq_true, Bool.and_eq_true]
  constructor
  · intro h
    rcases h with ((h1 | h2) | h3) | h4
    · exact Or.inl (eq_of_beq h1)
    · exact Or.inr (Or.inl ⟨eq_of_beq h2.1, h2.2⟩)
    · refine Or.inr (Or.inr (Or.inl ⟨⟨p.data.drop 2⟩, startsWith_star_dot_elim h3.1, ?_⟩))
      have e : ("." ++ (⟨p.data.drop 2⟩ : String)) = (⟨'.' :: p.data.drop 2⟩ : String) := rfl
      rw [e]
      exact h3.2
    · obtain ⟨⟨ha, hb⟩, hc⟩ := h4
      refine Or.inr (Or.inr (Or.inr ⟨⟨p.data.tail⟩, ?_, startsWith_star_elim ha, hc⟩))
      intro he
      have hd : p.data.tail = [] := by
        have := congrArg String.data he
        simpa using this
      rw [hd] at hb
      simp at hb
  · intro h
    rcases h with h | ⟨hp, hs⟩ | ⟨ext, hp, he⟩ | ⟨suf, hne, hp, he⟩
    · subst h
      simp
    · subst hp
      exact Or.inl (Or.inl (Or.inr ⟨rfl, hs⟩))
    · subst hp
      refine Or.inl (Or.inr ⟨?_, ?_⟩)
      · have hdata : ("*." ++ ext).data = '*' :: '.' :: ext.data := rfl
        simp [strStartsWith, hdata, List.isPrefixOf_cons₂]
      · have e : (⟨'.' :: ("*." ++ ext).data.drop 2⟩ : String) = "." ++ ext :=
          string_eq_of_data rfl
        rw [e]
        exact he
    · subst hp
      have hdata : ("*" ++ suf).data = '*' :: suf.data := rfl
      refine Or.inr ⟨⟨?_, ?_⟩, ?_⟩
      · simp [strStartsWith, hdata, List.isPrefixOf_cons₂]
      · rw [hdata]
        simp only [List.tail_cons]
        cases hsd : suf.data with
        | nil => exact absurd (string_eq_of_data (by rw [hsd])) hne
        | cons a t => rfl
      · have e : (⟨("*" ++ suf).data.tail⟩ : String) = suf := string_eq_of_data rfl
        rw [e]
        exact he

/-- C7 (confirmed): the extractor excludes an entry exactly when some
path component of the remapped path matches some configured pattern,
where a component matches a pattern iff it equals it exactly, or the
pattern is `.*` and the component starts with `.`, or the pattern is
`*.ext` and the component ends with `.ext`, or the pattern is `*suffix`
with non-empty suffix and the component ends with that suffix. -/
theorem claim_C7_component_glob_exclusion :
    ∀ (pathComponents excludePatterns : List String),
      should_exclude pathComponents excludePatterns = true ↔
        ∃ c ∈ pathComponents, ∃ p ∈ excludePatterns, globMatchSpec c p := by
  intro comps pats
  simp [should_exclude, List.any_eq_true, matches_glob_iff]

/-! ## Claim theorem: uninstall -/

/-- C9 (confirmed): `uninstall_addon` succeeds whether or not the
directory exists, removes it when present, leaves the filesystem
untouched when absent, and a second run on the same path succeeds and
changes nothing. -/
theorem claim_C9_uninstall_idempotent :
    ∀ (fs : List (List String)) (p : List String),
      ∃ fs₁, uninstall_addon fs p = .ok fs₁
        ∧ pathExists fs₁ p = false
        ∧ uninstall_addon fs₁ p = .ok fs₁
        ∧ (pathExists fs p = false → fs₁ = fs) := by
  intro fs p
  by_cases h : pathExists fs p = true
  · refine ⟨remove_dir_all fs p, ?_, ?_, ?_, ?_⟩
    · simp [uninstall_addon, h]
    · apply contains_eq_false_of_not_mem
      intro hm
      have hf := List.of_mem_filter hm
      simp [isPrefixOf_self] at hf
    · have hne : pathExists (remove_dir_all fs p) p = false := by
        apply contains_eq_false_of_not_mem
        intro hm
        have hf := List.of_mem_filter hm
        simp [isPrefixOf_self] at hf
      simp [uninstall_addon, hne]
    · intro hfalse
      rw [h] at hfalse
      exact absurd hfalse (by simp)
  · rw [Bool.not_eq_true] at h
    refine ⟨fs, ?_, h, ?_, fun _ => rfl⟩
    · simp [uninstall_addon, h]
    · simp [uninstall_addon, h]

/-- Witness for C9 on a filesystem holding `A` and `A/f`. -/
theorem claim_C9_witness :
    ∃ fs₁, uninstall_addon [["A"], ["A", "f"]] ["A"] = .ok fs₁
      ∧ pathExists fs₁ ["A"] = false
      ∧ uninstall_addon fs₁ ["A"] = .ok fs₁
      ∧ (pathExists [["A"], ["A", "f"]] ["A"] = false → fs₁ = [["A"], ["A", "f"]]) :=
  claim_C9_uninstall_idempotent [["A"], ["A", "f"]] ["A"]

/-! ## Claim theorems: resolver, concrete parts -/

/-- C10 (confirmed): when no catalog entry's slug equals the root slug by
exact, case-sensitive comparison, `resolve_dependencies` returns a result
with all three lists empty. -/
theorem claim_C10_missing_root_empty_result :
    ∀ (slug : String) (index : AddonIndex) (installed : List InstalledAddon),
      (∀ a ∈ index.addons, a.slug ≠ slug) →
      resolve_dependencies slug index installed =
        { resolved := [], alreadyInstalled := [], unresolved := [] } := by
  intro slug index installed h
  have hfind : index.addons.find? (fun a => a.slug == slug) = none := by
    rw [List.find?_eq_none]
    intro a ha
    simpa using h a ha
  simp [resolve_dependencies, resolveDependenciesFuel, defaultFuelFor, hfind]

/-- Witness for C10: the catalog holds only `"Foo"`, which matches the
root slug `"foo"` case-insensitively but not case-sensitively. -/
theorem claim_C10_witness :
    resolve_dependencies "foo"
      { version := "1.0", generatedAt := "2024-01-01", addonCount := 1,
        addons := [mkTestAddon "Foo" "Foo" []] } []
      = { resolved := [], alreadyInstalled := [], unresolved := [] } :=
  claim_C10_missing_root_empty_result "foo"
    { version := "1.0", generatedAt := "2024-01-01", addonCount := 1,
      addons := [mkTestAddon "Foo" "Foo" []] } [] (by decide)

/-- C1 (code_bug): on the catalog where the root requires `[y, m]`, `m`
requires `x`, and `x` requires `y`, the resolver returns the resolved
list `[x, y, m]` — `x` precedes `y` even though `x`'s catalog-declared
required dependencies include `y`, so the output is not a valid install
order, contradicting the comment on resolver.rs lines 105-106. -/
theorem claim_C1_depth_order_violation :
    ((resolve_dependencies "root" diamondIndex []).resolved.map (fun r => r.slug)
        = ["x", "y", "m"])
    ∧ (∃ a ∈ diamondIndex.addons, a.slug = "x" ∧ "y" ∈ a.compatibility.requiredDependencies) := by
  constructor
  · decide
  · decide

/-! ## Claim theorem: download fallback -/

theorem tryDownloadLoop_append (fetch : String → Option String)
    (xs ys : List (String × String)) (last : Option String) :
    tryDownloadLoop fetch (xs ++ ys) last =
      match tryDownloadLoop fetch xs last with
      | none => none
      | some l => tryDownloadLoop fetch ys l := by
  induction xs generalizing last with
  | nil => rfl
  | cons a rest ih =>
    obtain ⟨url, pre⟩ := a
    simp only [List.cons_append, tryDownloadLoop]
    cases fetch url <;> simp [ih]

theorem tryDownloadLoop_none_iff (fetch : String → Option String)
    (xs : List (String × String)) (last : Option String) :
    tryDownloadLoop fetch xs last = none ↔ ∃ a ∈ xs, fetch a.1 = none := by
  induction xs generalizing last with
  | nil => simp [tryDownloadLoop]
  | cons a rest ih =>
    obtain ⟨url, pre⟩ := a
    simp only [tryDownloadLoop]
    cases hf : fetch url with
    | none => simp [hf]
    | some e => simp [hf, ih]

theorem tryDownloadLoop_all_fail (fetch : String → Option String)
    (xs : List (String × String)) (last : Option String)
    (h : ∀ a ∈ xs, fetch a.1 ≠ none) :
    ∃ r, tryDownloadLoop fetch xs last = some r
      ∧ (xs = [] → r = last)
      ∧ (∀ a, xs.getLast? = some a → ∃ e, fetch a.1 = some e ∧ r = some (a.2 ++ e)) := by
  induction xs generalizing last with
  | nil => exact ⟨last, rfl, fun _ => rfl, by simp⟩
  | cons a rest ih =>
    obtain ⟨url, pre⟩ := a
    have hf : fetch url ≠ none := h (url, pre) (by simp)
    obtain ⟨e, he⟩ := Option.ne_none_iff_exists'.mp hf
    obtain ⟨r, hr, hnil, hlast⟩ := ih (some (pre ++ e)) (fun b hb => h b (by simp [hb]))
    refine ⟨r, ?_, by simp, ?_⟩
    · simp only [tryDownloadLoop, he]
      exact hr
    · intro b hb
      cases rest with
      | nil =>
        have hb' : b = (url, pre) := by simpa using hb.symm
        have hr' : r = some (pre ++ e) := by
          have h0 : tryDownloadLoop fetch [] (some (pre ++ e)) = some (some (pre ++ e)) := rfl
          rw [h0] at hr
          exact (Option.some.inj hr).symm
        subst hb'
        exact ⟨e, he, hr'⟩
      | cons c t =>
        rw [List.getLast?_cons_cons] at hb
        exact hlast b hb

theorem download_with_fallback_eq_loop (fetch : String → Option String)
    (sources : List DownloadSource) (fallbackUrl : Option String) :
    download_with_fallback fetch sources fallbackUrl =
      match tryDownloadLoop fetch (downloadCandidates sources fallbackUrl) none with
      | none => .ok ()
      | some last => .error (.Download (last.getD "All download sources failed")) := by
  simp only [download_with_fallback, downloadCandidates]
  rw [tryDownloadLoop_append, tryDownloadLoop_append]
  cases tryDownloadLoop fetch
      ((sources.filter (fun s => s.sourceType == "github_archive")).map
        (fun s => (s.url, s.sourceType ++ " download failed: "))) none with
  | none => rfl
  | some last1 =>
    dsimp only
    cases tryDownloadLoop fetch
        (((sources.filter (fun s => s.sourceType != "github_archive")).filter
          (fun s => strEndsWith s.url ".zip")).map
          (fun s => (s.url, s.sourceType ++ " download failed: "))) last1 with
    | none => rfl
    | some last2 =>
      dsimp only
      cases fallbackUrl with
      | none => rfl
      | some url =>
        simp only [tryDownloadLoop]
        cases fetch url <;> rfl

/-- C8 (confirmed): `download_with_fallback` attempts every
`github_archive` source in listed order before any other source, then
only those remaining sources whose URL ends in `.zip`, then the legacy
fallback URL when supplied; it succeeds as soon as any attempt succeeds,
and returns a `Download` error only after every qualifying candidate has
failed, carrying the last failure's reason. -/
theorem claim_C8_download_fallback_policy :
    ∀ (fetch : String → Option String) (sources : List DownloadSource)
      (fallbackUrl : Option String),
      ((downloadCandidates sources fallbackUrl).map Prod.fst =
        (sources.filter (fun s => s.sourceType == "github_archive")).map (fun s => s.url)
        ++ ((sources.filter (fun s => s.sourceType != "github_archive")).filter
            (fun s => strEndsWith s.url ".zip")).map (fun s => s.url)
        ++ (match fallbackUrl with | some u => [u] | none => []))
      ∧ (download_with_fallback fetch sources fallbackUrl = .ok () ↔
          ∃ a ∈ downloadCandidates sources fallbackUrl, fetch a.1 = none)
      ∧ ((∀ a ∈ downloadCandidates sources fallbackUrl, fetch a.1 ≠ none) →
          ∀ a, (downloadCandidates sources fallbackUrl).getLast? = some a →
            ∃ e, fetch a.1 = some e ∧
              download_with_fallback fetch sources fallbackUrl =
                .error (.Download (a.2 ++ e)))
      ∧ (downloadCandidates sources fallbackUrl = [] →
          download_with_fallback fetch sources fallbackUrl =
            .error (.Download "All download sources failed")) := by
  intro fetch sources fallbackUrl
  refine ⟨?_, ?_, ?_, ?_⟩
  · simp only [downloadCandidates, List.map_append, List.map_map]
    cases fallbackUrl <;> rfl
  · rw [download_with_fallback_eq_loop]
    cases h : tryDownloadLoop fetch (downloadCandidates sources fallbackUrl) none with
    | none =>
      simp only []
      rw [← tryDownloadLoop_none_iff fetch _ none, h]
      simp
    | some last =>
      simp only []
      rw [← tryDownloadLoop_none_iff fetch _ none, h]
      simp
  · intro hall a hlast
    obtain ⟨r, hr, _, hgl⟩ := tryDownloadLoop_all_fail fetch _ none hall
    obtain ⟨e, he, hre⟩ := hgl a hlast
    refine ⟨e, he, ?_⟩
    rw [download_with_fallback_eq_loop, hr, hre]
    rfl
  · intro hempty
    rw [download_with_fallback_eq_loop, hempty]
    rfl

/-- Witness for C8: both typed sources and the fallback fail, and the
error carries the fallback's failure reason (the last attempt). -/
theorem claim_C8_witness :
    download_with_fallback (fun _ => some "boom")
      [{ sourceType := "jsdelivr", url := "u1.zip" },
       { sourceType := "github_archive", url := "u2" }] (some "u3")
      = .error (.Download ("Fallback download failed: " ++ "boom")) := by
  obtain ⟨e, he, hr⟩ :=
    (claim_C8_download_fallback_policy (fun _ => some "boom")
      [{ sourceType := "jsdelivr", url := "u1.zip" },
       { sourceType := "github_archive", url := "u2" }] (some "u3")).2.2.1
      (by intro a _; simp) ("u3", "Fallback download failed: ") (by decide)
  have heq : e = "boom" := by simpa using he.symm
  subst heq
  exact hr

/-! ## Lowercasing and the fuzzy installed test -/

theorem charLower_eq_dash_iff (c : Char) : charLower c = '-' ↔ c = '-' := by
  unfold charLower
  by_cases h : 65 ≤ c.toNat ∧ c.toNat ≤ 90
  · rw [if_pos h]
    constructor
    · intro hc
      exfalso
      obtain ⟨h1, h2⟩ := h
      generalize hn : c.toNat = n at h1 h2 hc
      interval_cases n <;> exact absurd hc (by decide)
    · intro hc
      subst hc
      exact absurd h (by decide)
  · rw [if_neg h]

theorem takeWhile_ne_dash_map (cs : List Char) :
    (cs.map charLower).takeWhile (fun c => c ≠ '-')
      = (cs.takeWhile (fun c => c ≠ '-')).map charLower := by
  induction cs with
  | nil => rfl
  | cons c t ih =>
    simp only [List.map_cons, List.takeWhile_cons]
    by_cases h : c = '-'
    · subst h
      have hc : charLower '-' = '-' := by decide
      rw [hc]
      simp
    · have hl : charLower c ≠ '-' := fun hc => h ((charLower_eq_dash_iff c).mp hc)
      simp [h, hl]
      simpa using ih

theorem strBase_strLower (s : String) : strBase (strLower s) = strLower (strBase s) :=
  congrArg String.mk (takeWhile_ne_dash_map s.data)

theorem takeWhile_isPrefixOf_list (p : Char → Bool) (cs : List Char) :
    (cs.takeWhile p).isPrefixOf cs = true := by
  induction cs with
  | nil => simp
  | cons c t ih =>
    rw [List.takeWhile_cons]
    by_cases h : p c = true
    · simp [h, List.isPrefixOf_cons₂, ih]
    · simp [h]

theorem strStartsWith_strBase (s : String) : strStartsWith s (strBase s) = true :=
  takeWhile_isPrefixOf_list _ s.data

theorem is_installed_eq_true_iff (slug : String) (instS instF : List String) :
    is_installed slug instS instF = true ↔
      instS.contains (strLower slug) = true
      ∨ instF.contains (strLower slug) = true
      ∨ instS.any (fun s => strStartsWith s (strBase (strLower slug))
          || strStartsWith (strBase (strLower slug)) s) = true
      ∨ instF.any (fun f => strStartsWith f (strBase (strLower slug))
          || strStartsWith (strBase (strLower slug)) f) = true := by
  simp only [is_installed]
  split_ifs with h1 h2
  · exact ⟨fun _ => Or.inl h1, fun _ => rfl⟩
  · exact ⟨fun _ => Or.inr (Or.inl h2), fun _ => rfl⟩
  · rw [Bool.or_eq_true]
    constructor
    · intro h
      rcases h with h | h
      · exact Or.inr (Or.inr (Or.inl h))
      · exact Or.inr (Or.inr (Or.inr h))
    · intro h
      rcases h with h | h | h | h
      · exact absurd h h1
      · exact absurd h h2
      · exact Or.inl h
      · exact Or.inr h

theorem is_installed_transfer {x y : String} (instS instF : List String)
    (hbase : strBase (strLower x) = strBase (strLower y))
    (h : is_installed (strLower x) instS instF = true) :
    is_installed (strLower y) instS instF = true := by
  have hb2 : strBase (strLower (strLower x)) = strBase (strLower (strLower y)) := by
    rw [strBase_strLower (strLower x), strBase_strLower (strLower y), hbase]
  rw [is_installed_eq_true_iff] at h ⊢
  rcases h with h | h | h | h
  · refine Or.inr (Or.inr (Or.inl ?_))
    rw [List.any_eq_true]
    refine ⟨strLower (strLower x), (List.elem_iff).mp h, ?_⟩
    rw [Bool.or_eq_true]
    left
    rw [← hb2]
    exact strStartsWith_strBase (strLower (strLower x))
  · refine Or.inr (Or.inr (Or.inr ?_))
    rw [List.any_eq_true]
    refine ⟨strLower (strLower x), (List.elem_iff).mp h, ?_⟩
    rw [Bool.or_eq_true]
    left
    rw [← hb2]
    exact strStartsWith_strBase (strLower (strLower x))
  · refine Or.inr (Or.inr (Or.inl ?_))
    rw [← hb2]
    exact h
  · refine Or.inr (Or.inr (Or.inr ?_))
    rw [← hb2]
    exact h

/-! ## Facts about the slug-keyed entry list and `find_in_index` -/

theorem foldl_entries_mem :
    ∀ (l acc : List IndexAddon) (x : IndexAddon),
      x ∈ l.foldl (fun acc a => acc.filter (fun b => b.slug ≠ a.slug) ++ [a]) acc →
      x ∈ acc ∨ x ∈ l := by
  intro l
  induction l with
  | nil => intro acc x h; exact Or.inl h
  | cons a t ih =>
    intro acc x h
    rcases ih _ x h with h1 | h1
    · rcases List.mem_append.mp h1 with h2 | h2
      · exact Or.inl (List.mem_of_mem_filter h2)
      · simp at h2
        subst h2
        exact Or.inr (by simp)
    · exact Or.inr (List.mem_cons_of_mem _ h1)

theorem indexEntries_subset {addons : List IndexAddon} {a : IndexAddon}
    (h : a ∈ indexEntries addons) : a ∈ addons := by
  rcases foldl_entries_mem addons [] a h with h1 | h1
  · simp at h1
  · exact h1

theorem foldl_entries_slugs_nodup :
    ∀ (l acc : List IndexAddon),
      ((acc.map (fun a => a.slug)).Nodup) →
      (((l.foldl (fun acc a => acc.filter (fun b => b.slug ≠ a.slug) ++ [a]) acc).map
        (fun a => a.slug)).Nodup) := by
  intro l
  induction l with
  | nil => intro acc h; exact h
  | cons a t ih =>
    intro acc h
    apply ih
    rw [List.map_append, List.nodup_append]
    refine ⟨?_, by simp, ?_⟩
    · exact List.Nodup.sublist (List.Sublist.map _ (List.filter_sublist acc)) h
    · intro s hs
      obtain ⟨b, hb, rfl⟩ := List.mem_map.mp hs
      have := List.of_mem_filter hb
      simp only [List.map_cons, List.map_nil, List.mem_singleton]
      intro he
      rw [he] at this
      simp at this

theorem indexEntries_slugs_nodup (addons : List IndexAddon) :
    ((indexEntries addons).map (fun a => a.slug)).Nodup :=
  foldl_entries_slugs_nodup addons [] (by simp)

theorem find_in_index_mem {entries : List IndexAddon} {dep : String} {addon : IndexAddon}
    (h : find_in_index dep entries = some addon) : addon ∈ entries := by
  unfold find_in_index at h
  cases h1 : entries.find? (fun a => a.slug == dep) with
  | some a =>
    rw [h1] at h
    cases h
    exact List.mem_of_find?_eq_some h1
  | none =>
    rw [h1] at h
    dsimp only at h
    cases h2 : entries.find? (fun a => strLower a.slug == strLower dep) with
    | some a =>
      rw [h2] at h
      cases h
      exact List.mem_of_find?_eq_some h2
    | none =>
      rw [h2] at h
      dsimp only at h
      exact List.mem_of_find?_eq_some h

theorem find_in_index_exact_or {entries : List IndexAddon} {dep : String} {addon : IndexAddon}
    (h : find_in_index dep entries = some addon) :
    addon.slug = dep ∨ ∀ a ∈ entries, a.slug ≠ dep := by
  unfold find_in_index at h
  cases h1 : entries.find? (fun a => a.slug == dep) with
  | some a =>
    rw [h1] at h
    cases h
    have hp := List.find?_some h1
    exact Or.inl (eq_of_beq hp)
  | none =>
    refine Or.inr ?_
    intro a ha he
    have := List.find?_eq_none.mp h1 a ha
    simp [he] at this

theorem find_in_index_rel {entries : List IndexAddon} {dep : String} {addon : IndexAddon}
    (h : find_in_index dep entries = some addon) :
    addon.slug = dep ∨ strLower addon.slug = strLower dep
      ∨ strBase (strLower addon.slug) = strBase (strLower dep) := by
  unfold find_in_index at h
  cases h1 : entries.find? (fun a => a.slug == dep) with
  | some a =>
    rw [h1] at h
    cases h
    have hp := List.find?_some h1
    exact Or.inl (eq_of_beq hp)
  | none =>
    rw [h1] at h
    dsimp only at h
    cases h2 : entries.find? (fun a => strLower a.slug == strLower dep) with
    | some a =>
      rw [h2] at h
      cases h
      have hp := List.find?_some h2
      exact Or.inr (Or.inl (eq_of_beq hp))
    | none =>
      rw [h2] at h
      dsimp only at h
      have hp := List.find?_some h
      exact Or.inr (Or.inr (eq_of_beq hp))

theorem find_in_index_none_no_exact {entries : List IndexAddon} {dep : String}
    (h : find_in_index dep entries = none) : ∀ a ∈ entries, a.slug ≠ dep := by
  unfold find_in_index at h
  cases h1 : entries.find? (fun a => a.slug == dep) with
  | some a => rw [h1] at h; cases h
  | none =>
    intro a ha he
    have := List.find?_eq_none.mp h1 a ha
    simp [he] at this

/-! ## Classification of one dependency -/

theorem classify_eq_installed {entries : List IndexAddon} {instS instF : List String}
    {dep : String} (h : classifyDep entries instS instF dep = .installed) :
    is_installed (strLower dep) instS instF = true := by
  unfold classifyDep at h
  by_cases hi : is_installed (strLower dep) instS instF = true
  · exact hi
  · rw [if_neg hi] at h
    cases hf : find_in_index dep entries with
    | none => rw [hf] at h; cases h
    | some addon =>
      rw [hf] at h
      dsimp only at h
      cases hu : releaseDownloadUrl addon with
      | none => rw [hu] at h; cases h
      | some url => rw [hu] at h; cases h

theorem classify_eq_resolvable {entries : List IndexAddon} {instS instF : List String}
    {dep : String} {addon : IndexAddon} {url : String}
    (h : classifyDep entries instS instF dep = .resolvable addon url) :
    is_installed (strLower dep) instS instF = false
      ∧ find_in_index dep entries = some addon
      ∧ releaseDownloadUrl addon = some url := by
  unfold classifyDep at h
  by_cases hi : is_installed (strLower dep) instS instF = true
  · rw [if_pos hi] at h; cases h
  · rw [if_neg hi] at h
    refine ⟨by rw [Bool.eq_false_iff]; exact hi, ?_⟩
    cases hf : find_in_index dep entries with
    | none => rw [hf] at h; cases h
    | some a =>
      rw [hf] at h
      dsimp only at h
      cases hu : releaseDownloadUrl a with
      | none => rw [hu] at h; cases h
      | some u =>
        rw [hu] at h
        cases h
        exact ⟨rfl, hu⟩

theorem classify_eq_unres {entries : List IndexAddon} {instS instF : List String}
    {dep : String} (h : classifyDep entries instS instF dep = .unres) :
    is_installed (strLower dep) instS instF = false
      ∧ (find_in_index dep entries = none
         ∨ ∃ addon, find_in_index dep entries = some addon
             ∧ releaseDownloadUrl addon = none) := by
  unfold classifyDep at h
  by_cases hi : is_installed (strLower dep) instS instF = true
  · rw [if_pos hi] at h; cases h
  · rw [if_neg hi] at h
    refine ⟨by rw [Bool.eq_false_iff]; exact hi, ?_⟩
    cases hf : find_in_index dep entries with
    | none => exact Or.inl rfl
    | some a =>
      rw [hf] at h
      dsimp only at h
      cases hu : releaseDownloadUrl a with
      | none => exact Or.inr ⟨a, rfl, hu⟩
      | some u => rw [hu] at h; cases h

/-! ## The resolver invariant is preserved -/

theorem ResultInv.push_already {entries : List IndexAddon} {instS instF : List String}
    {dep : String} {result : DependencyResult}
    (hInv : ResultInv entries instS instF result)
    (hi : is_installed (strLower dep) instS instF = true) :
    ResultInv entries instS instF (pushAlready dep result) := by
  unfold pushAlready
  split_ifs with hc
  · exact hInv
  · obtain ⟨h1, h2, h3, h4, h5, h6⟩ := hInv
    refine ⟨h1, ?_, h3, ?_, h5, h6⟩
    · rw [List.nodup_append]
      refine ⟨h2, by simp, ?_⟩
      intro s hs hmem
      simp only [List.mem_singleton] at hmem
      subst hmem
      exact hc ((List.elem_iff).mpr hs)
    · intro s hs
      rcases List.mem_append.mp hs with h | h
      · exact h4 s h
      · simp only [List.mem_singleton] at h
        subst h
        exact hi

theorem ResultInv.push_unresolved {entries : List IndexAddon} {instS instF : List String}
    {dep : String} {result : DependencyResult}
    (hnodup : ((entries.map (fun a => a.slug)).Nodup))
    (hInv : ResultInv entries instS instF result)
    (hni : is_installed (strLower dep) instS instF = false)
    (hfind : find_in_index dep entries = none
       ∨ ∃ addon, find_in_index dep entries = some addon ∧ releaseDownloadUrl addon = none) :
    ResultInv entries instS instF (pushUnresolved dep result) := by
  unfold pushUnresolved
  split_ifs with hc
  · exact hInv
  · obtain ⟨h1, h2, h3, h4, h5, h6⟩ := hInv
    refine ⟨h1, h2, ?_, h4, ?_, h6⟩
    · rw [List.nodup_append]
      refine ⟨h3, by simp, ?_⟩
      intro s hs hmem
      simp only [List.mem_singleton] at hmem
      subst hmem
      exact hc ((List.elem_iff).mpr hs)
    · intro s hs
      rcases List.mem_append.mp hs with h | h
      · exact h5 s h
      · simp only [List.mem_singleton] at h
        subst h
        refine ⟨hni, ?_⟩
        intro a ha he
        rcases hfind with hf | ⟨addon, hf, hu⟩
        · exact absurd he (find_in_index_none_no_exact hf a ha)
        · rcases find_in_index_exact_or hf with hax | hnone
          · have hae : a = addon :=
              List.inj_on_of_nodup_map hnodup ha (find_in_index_mem hf) (by rw [he, hax])
            rw [hae]
            exact hu
          · exact absurd he (hnone a ha)

theorem ResultInv.push_resolved {entries : List IndexAddon} {instS instF : List String}
    {dep : String} {result : DependencyResult} {addon : IndexAddon} {url : String}
    {depth : Nat}
    (hInv : ResultInv entries instS instF result)
    (hni : is_installed (strLower dep) instS instF = false)
    (hfind : find_in_index dep entries = some addon)
    (hurl : releaseDownloadUrl addon = some url) :
    ResultInv entries instS instF (pushResolved addon url depth result) := by
  unfold pushResolved
  split_ifs with hc
  · exact hInv
  · obtain ⟨h1, h2, h3, h4, h5, h6⟩ := hInv
    have hslug_ni : is_installed (strLower addon.slug) instS instF = false := by
      rcases find_in_index_rel hfind with he | he | he
      · rw [he]
        exact hni
      · have hcong : is_installed (strLower addon.slug) instS instF
            = is_installed (strLower dep) instS instF := by rw [he]
        rw [hcong]
        exact hni
      · rw [Bool.eq_false_iff]
        intro htrue
        have habs := is_installed_transfer instS instF he htrue
        rw [hni] at habs
        cases habs
    refine ⟨?_, h2, h3, h4, h5, ?_⟩
    · rw [List.map_append, List.nodup_append]
      refine ⟨h1, by simp, ?_⟩
      intro s hs hmem
      simp only [List.map_cons, List.map_nil, List.mem_singleton] at hmem
      subst hmem
      obtain ⟨d, hd, hds⟩ := List.mem_map.mp hs
      apply hc
      rw [List.any_eq_true]
      exact ⟨d, hd, by rw [hds]; exact beq_self_eq_true _⟩
    · intro d hd
      rcases List.mem_append.mp hd with h | h
      · exact h6 d h
      · simp only [List.mem_singleton] at h
        subst h
        exact ⟨hslug_ni, addon, find_in_index_mem hfind, rfl, by rw [hurl]; simp⟩

theorem resolve_recursive_inv (entries : List IndexAddon) (instS instF : List String)
    (hnodup : ((entries.map (fun a => a.slug)).Nodup)) :
    ∀ (fuel : Nat) (deps : List String) (depth : Nat) (visited : List String)
      (result : DependencyResult),
      ResultInv entries instS instF result →
      ResultInv entries instS instF
        (resolve_recursive entries instS instF fuel deps depth visited result).2 := by
  intro fuel
  induction fuel with
  | zero =>
    intro deps depth visited result h
    exact h
  | succ fuel ih =>
    intro deps depth visited result h
    cases deps with
    | nil => exact h
    | cons dep rest =>
      simp only [resolve_recursive]
      by_cases hv : visited.contains (strLower dep) = true
      · rw [if_pos hv]
        exact ih rest depth visited result h
      · rw [if_neg hv]
        cases hc : classifyDep entries instS instF dep with
        | installed =>
          exact ih rest depth _ _ (ResultInv.push_already h (classify_eq_installed hc))
        | resolvable addon url =>
          obtain ⟨hni, hfind, hurl⟩ := classify_eq_resolvable hc
          exact ih rest depth _ _
            (ih addon.compatibility.requiredDependencies (depth + 1) _ _
              (ResultInv.push_resolved h hni hfind hurl))
        | unres =>
          obtain ⟨hni, hfind⟩ := classify_eq_unres hc
          exact ih rest depth _ _ (ResultInv.push_unresolved hnodup h hni hfind)

/-! ## The final sort is a permutation -/

theorem insertByDepth_perm (r : ResolvedDependency) (l : List ResolvedDependency) :
    (insertByDepth r l).Perm (r :: l) := by
  induction l with
  | nil => exact List.Perm.refl _
  | cons x xs ih =>
    simp only [insertByDepth]
    split_ifs with h
    · exact List.Perm.trans (List.Perm.cons x ih) (List.Perm.swap r x xs)
    · exact List.Perm.refl _

theorem sortByDepthDesc_perm (l : List ResolvedDependency) : (sortByDepthDesc l).Perm l := by
  have aux : ∀ (t acc : List ResolvedDependency),
      (t.foldl (fun acc r => insertByDepth r acc) acc).Perm (acc ++ t) := by
    intro t
    induction t with
    | nil => intro acc; simp
    | cons r u ih =>
      intro acc
      have h1 := ih (insertByDepth r acc)
      have h2 : (insertByDepth r acc ++ u).Perm ((r :: acc) ++ u) :=
        (insertByDepth_perm r acc).append_right u
      have h3 : ((r :: acc) ++ u) = r :: (acc ++ u) := rfl
      have h4 : (acc ++ r :: u).Perm (r :: (acc ++ u)) := List.perm_middle
      exact (h1.trans (h2.trans (by rw [h3]))).trans h4.symm
  simpa using aux l []

/-- C3 (confirmed): in every `DependencyResult` returned by
`resolve_dependencies`, no slug string appears in more than one of the
three lists `resolved`, `alreadyInstalled`, `unresolved` (their pairwise
intersections are empty), and no list contains the same slug twice. -/
theorem claim_C3_lists_disjoint_nodup :
    ∀ (slug : String) (index : AddonIndex) (installed : List InstalledAddon),
      ((resolve_dependencies slug index installed).resolved.map (fun d => d.slug)).Nodup
      ∧ (resolve_dependencies slug index installed).alreadyInstalled.Nodup
      ∧ (resolve_dependencies slug index installed).unresolved.Nodup
      ∧ ((resolve_dependencies slug index installed).resolved.map (fun d => d.slug))
          ∩ (resolve_dependencies slug index installed).alreadyInstalled = []
      ∧ ((resolve_dependencies slug index installed).resolved.map (fun d => d.slug))
          ∩ (resolve_dependencies slug index installed).unresolved = []
      ∧ (resolve_dependencies slug index installed).alreadyInstalled
          ∩ (resolve_dependencies slug index installed).unresolved = [] := by
  intro slug index installed
  unfold resolve_dependencies resolveDependenciesFuel
  cases hf : index.addons.find? (fun a => a.slug == slug) with
  | none =>
    refine ⟨by simp, by simp, by simp, rfl, rfl, rfl⟩
  | some addon =>
    dsimp only
    have hInv := resolve_recursive_inv (indexEntries index.addons)
      (installed.map (fun a => strLower a.slug))
      ((installed.filterMap (fun a => folderOfManifestPath a.manifestPath)).map strLower)
      (indexEntries_slugs_nodup index.addons)
      (defaultFuelFor slug index)
      addon.compatibility.requiredDependencies 0 [slug]
      { resolved := [], alreadyInstalled := [], unresolved := [] }
      ⟨by simp, by simp, by simp, by simp, by simp, by simp⟩
    obtain ⟨h1, h2, h3, h4, h5, h6⟩ := hInv
    have hperm :
        ((sortByDepthDesc (resolve_recursive (indexEntries index.addons)
            (installed.map (fun a => strLower a.slug))
            ((installed.filterMap (fun a => folderOfManifestPath a.manifestPath)).map strLower)
            (defaultFuelFor slug index) addon.compatibility.requiredDependencies 0 [slug]
            { resolved := [], alreadyInstalled := [], unresolved := [] }).2.resolved).map
          (fun d => d.slug)).Perm
        (((resolve_recursive (indexEntries index.addons)
            (installed.map (fun a => strLower a.slug))
            ((installed.filterMap (fun a => folderOfManifestPath a.manifestPath)).map strLower)
            (defaultFuelFor slug index) addon.compatibility.requiredDependencies 0 [slug]
            { resolved := [], alreadyInstalled := [], unresolved := [] }).2.resolved).map
          (fun d => d.slug)) :=
      (sortByDepthDesc_perm _).map _
    refine ⟨hperm.nodup_iff.mpr h1, h2, h3, ?_, ?_, ?_⟩
    · rw [List.inter_eq_nil_iff_disjoint]
      intro s hsr hsa
      obtain ⟨d, hd, hds⟩ := List.mem_map.mp (hperm.mem_iff.mp hsr)
      have hfalse := (h6 d hd).1
      have htrue := h4 s hsa
      rw [← hds] at htrue
      rw [htrue] at hfalse
      cases hfalse
    · rw [List.inter_eq_nil_iff_disjoint]
      intro s hsr hsu
      obtain ⟨d, hd, hds⟩ := List.mem_map.mp (hperm.mem_iff.mp hsr)
      obtain ⟨a, ha, has, hau⟩ := (h6 d hd).2
      exact hau ((h5 s hsu).2 a ha (by rw [has, hds]))
    · rw [List.inter_eq_nil_iff_disjoint]
      intro s hsa hsu
      have htrue := h4 s hsa
      have hfalse := (h5 s hsu).1
      rw [htrue] at hfalse
      cases hfalse

/-! ## Termination: enough fuel makes the fuel irrelevant -/

theorem resolve_recursive_nil (entries : List IndexAddon) (instS instF : List String)
    (fuel depth : Nat) (visited : List String) (result : DependencyResult) :
    resolve_recursive entries instS instF fuel [] depth visited result = (visited, result) := by
  cases fuel <;> rfl

theorem contains_cons_of_contains {l : List String} {s x : String}
    (h : l.contains s = true) : (x :: l).contains s = true := by
  rw [List.contains_cons]
  rw [h]
  simp

theorem resolve_recursive_visited_mono (entries : List IndexAddon) (instS instF : List String) :
    ∀ (fuel : Nat) (deps : List String) (depth : Nat) (visited : List String)
      (result : DependencyResult) (s : String),
      visited.contains s = true →
      (resolve_recursive entries instS instF fuel deps depth visited result).1.contains s
        = true := by
  intro fuel
  induction fuel with
  | zero =>
    intro deps depth visited result s h
    exact h
  | succ fuel ih =>
    intro deps depth visited result s h
    cases deps with
    | nil => exact h
    | cons dep rest =>
      simp only [resolve_recursive]
      by_cases hv : visited.contains (strLower dep) = true
      · rw [if_pos hv]
        exact ih rest depth visited result s h
      · rw [if_neg hv]
        cases classifyDep entries instS instF dep with
        | installed =>
          exact ih rest depth _ _ s (contains_cons_of_contains h)
        | resolvable addon url =>
          exact ih rest depth _ _ s
            (ih addon.compatibility.requiredDependencies (depth + 1) _ _ s
              (contains_cons_of_contains h))
        | unres =>
          exact ih rest depth _ _ s (contains_cons_of_contains h)

theorem maxDepsLen_le {addons : List IndexAddon} {a : IndexAddon} (h : a ∈ addons) :
    a.compatibility.requiredDependencies.length ≤ maxDepsLen addons := by
  induction addons with
  | nil => cases h
  | cons b t ih =>
    rcases List.mem_cons.mp h with h1 | h1
    · subst h1
      exact Nat.le_max_left _ _
    · exact Nat.le_trans (ih h1) (Nat.le_max_right _ _)

theorem mem_depsUniverse {addons : List IndexAddon} {a : IndexAddon} {d : String}
    (ha : a ∈ addons) (hd : d ∈ a.compatibility.requiredDependencies) :
    strLower d ∈ depsUniverse addons := by
  unfold depsUniverse
  rw [List.mem_toFinset]
  exact List.mem_map_of_mem _ (List.mem_flatMap_of_mem ha hd)

theorem remainingCount_mono {addons : List IndexAddon} {visited visited' : List String}
    (h : ∀ s, visited.contains s = true → visited'.contains s = true) :
    remainingCount addons visited' ≤ remainingCount addons visited := by
  apply Finset.card_le_card
  intro u hu
  rw [Finset.mem_filter] at hu ⊢
  refine ⟨hu.1, ?_⟩
  cases hcc : visited.contains u with
  | false => rfl
  | true =>
    have := h u hcc
    rw [hu.2] at this
    cases this

theorem remainingCount_lt {addons : List IndexAddon} {visited : List String} {u : String}
    (hu : u ∈ depsUniverse addons) (hnv : visited.contains u = false) :
    remainingCount addons (u :: visited) < remainingCount addons visited := by
  apply Finset.card_lt_card
  rw [Finset.ssubset_iff_of_subset]
  · refine ⟨u, ?_, ?_⟩
    · rw [Finset.mem_filter]
      exact ⟨hu, hnv⟩
    · rw [Finset.mem_filter]
      intro hmem
      have := hmem.2
      rw [List.contains_cons] at this
      simp at this
  · intro x hx
    rw [Finset.mem_filter] at hx ⊢
    refine ⟨hx.1, ?_⟩
    have := hx.2
    rw [List.contains_cons] at this
    cases hcc : visited.contains x with
    | false => rfl
    | true =>
      rw [hcc] at this
      simp at this

theorem resolve_recursive_stabilizes (entries addons : List IndexAddon)
    (instS instF : List String) (hE : ∀ a ∈ entries, a ∈ addons) :
    ∀ (n m : Nat), n ≤ m →
      ∀ (deps : List String) (depth : Nat) (visited : List String)
        (result : DependencyResult),
        (∀ d ∈ deps, strLower d ∈ depsUniverse addons) →
        defaultFuel addons deps visited ≤ n →
        resolve_recursive entries instS instF m deps depth visited result
          = resolve_recursive entries instS instF n deps depth visited result := by
  intro n
  induction n with
  | zero =>
    intro m hm deps depth visited result hdeps hF
    have hnil : deps = [] := by
      cases deps with
      | nil => rfl
      | cons d t =>
        unfold defaultFuel at hF
        simp only [List.length_cons] at hF
        omega
    subst hnil
    rw [resolve_recursive_nil, resolve_recursive_nil]
  | succ n ih =>
    intro m hm deps depth visited result hdeps hF
    cases m with
    | zero => omega
    | succ m' =>
      have hm' : n ≤ m' := by omega
      cases deps with
      | nil => rw [resolve_recursive_nil, resolve_recursive_nil]
      | cons dep rest =>
        have hFr : defaultFuel addons rest visited ≤ n := by
          unfold defaultFuel at hF ⊢
          simp only [List.length_cons] at hF
          omega
        simp only [resolve_recursive]
        by_cases hv : visited.contains (strLower dep) = true
        · rw [if_pos hv, if_pos hv]
          exact ih m' hm' rest depth visited result
            (fun d hd => hdeps d (List.mem_cons_of_mem _ hd)) hFr
        · rw [if_neg hv, if_neg hv]
          have hcons : ∀ s, visited.contains s = true →
              (strLower dep :: visited).contains s = true :=
            fun s hs => contains_cons_of_contains hs
          have hνcons : remainingCount addons (strLower dep :: visited)
              ≤ remainingCount addons visited := remainingCount_mono hcons
          cases hc : classifyDep entries instS instF dep with
          | installed =>
            apply ih m' hm' rest depth _ _
              (fun d hd => hdeps d (List.mem_cons_of_mem _ hd))
            unfold defaultFuel at hF ⊢
            simp only [List.length_cons] at hF
            have := Nat.mul_le_mul_left (maxDepsLen addons + 1) hνcons
            omega
          | resolvable addon url =>
            obtain ⟨hni, hfind, hurl⟩ := classify_eq_resolvable hc
            have haddon : addon ∈ addons := hE _ (find_in_index_mem hfind)
            have hmemU : strLower dep ∈ depsUniverse addons := hdeps dep (by simp)
            have hnv : visited.contains (strLower dep) = false := by
              rw [Bool.eq_false_iff]
              exact hv
            have hνlt : remainingCount addons (strLower dep :: visited)
                < remainingCount addons visited := remainingCount_lt hmemU hnv
            have hlen : addon.compatibility.requiredDependencies.length
                ≤ maxDepsLen addons := maxDepsLen_le haddon
            have hFinner : defaultFuel addons addon.compatibility.requiredDependencies
                (strLower dep :: visited) ≤ n := by
              unfold defaultFuel at hF ⊢
              simp only [List.length_cons] at hF
              have hmul : (maxDepsLen addons + 1) * remainingCount addons
                    (strLower dep :: visited)
                  ≤ (maxDepsLen addons + 1) * (remainingCount addons visited - 1) :=
                Nat.mul_le_mul_left _ (by omega)
              have hsucc : (maxDepsLen addons + 1) * (remainingCount addons visited - 1)
                    + (maxDepsLen addons + 1)
                  = (maxDepsLen addons + 1) * remainingCount addons visited := by
                rw [← Nat.mul_succ]
                congr 1
                omega
              omega
            have hinner := ih m' hm' addon.compatibility.requiredDependencies (depth + 1)
              (strLower dep :: visited) (pushResolved addon url depth result)
              (fun d hd => mem_depsUniverse haddon hd) hFinner
            dsimp only
            rw [hinner]
            have hν2 : remainingCount addons
                (resolve_recursive entries instS instF n
                  addon.compatibility.requiredDependencies (depth + 1)
                  (strLower dep :: visited) (pushResolved addon url depth result)).1
                ≤ remainingCount addons visited := by
              apply remainingCount_mono
              intro s hs
              exact resolve_recursive_visited_mono entries instS instF n _ _ _ _ s
                (contains_cons_of_contains hs)
            apply ih m' hm' rest depth _ _
              (fun d hd => hdeps d (List.mem_cons_of_mem _ hd))
            unfold defaultFuel at hF ⊢
            simp only [List.length_cons] at hF
            have := Nat.mul_le_mul_left (maxDepsLen addons + 1) hν2
            omega
          | unres =>
            apply ih m' hm' rest depth _ _
              (fun d hd => hdeps d (List.mem_cons_of_mem _ hd))
            unfold defaultFuel at hF ⊢
            simp only [List.length_cons] at hF
            have := Nat.mul_le_mul_left (maxDepsLen addons + 1) hνcons
            omega

/-- C4 (confirmed): the recursion of `resolve_dependencies` terminates on
every finite catalog — adding any amount of extra fuel beyond the budget
the function runs with never changes the result, so the unbounded Rust
recursion stabilizes — and on the cyclic catalog (`a` requires `b`, `b`
requires `a`) it returns a result in which neither `a` nor `b` occurs
more than once in any list. -/
theorem claim_C4_terminates_cycle_no_dup :
    (∀ (slug : String) (index : AddonIndex) (installed : List InstalledAddon) (k : Nat),
      resolveDependenciesFuel (defaultFuelFor slug index + k) slug index installed
        = resolve_dependencies slug index installed)
    ∧ resolve_dependencies "a" cycleIndex []
        = ⟨[⟨"b", "B", "1.0.0", "https://example.com/b.zip", ⟨"branch", none, "b", []⟩, 0⟩],
           [], []⟩
    ∧ ((resolve_dependencies "a" cycleIndex []).resolved.map (fun r => r.slug)).count "a" ≤ 1
    ∧ ((resolve_dependencies "a" cycleIndex []).resolved.map (fun r => r.slug)).count "b" ≤ 1
    ∧ (resolve_dependencies "a" cycleIndex []).alreadyInstalled.count "a" ≤ 1
    ∧ (resolve_dependencies "a" cycleIndex []).alreadyInstalled.count "b" ≤ 1
    ∧ (resolve_dependencies "a" cycleIndex []).unresolved.count "a" ≤ 1
    ∧ (resolve_dependencies "a" cycleIndex []).unresolved.count "b" ≤ 1 := by
  refine ⟨?_, by decide, by decide, by decide, by decide, by decide, by decide, by decide⟩
  intro slug index installed k
  unfold resolve_dependencies resolveDependenciesFuel defaultFuelFor
  cases hf : index.addons.find? (fun a => a.slug == slug) with
  | none => rfl
  | some addon =>
    dsimp only
    have haddon : addon ∈ index.addons := List.mem_of_find?_eq_some hf
    have hstab := resolve_recursive_stabilizes (indexEntries index.addons) index.addons
      (installed.map (fun a => strLower a.slug))
      ((installed.filterMap (fun a => folderOfManifestPath a.manifestPath)).map strLower)
      (fun a ha => indexEntries_subset ha)
      (defaultFuel index.addons addon.compatibility.requiredDependencies [slug])
      (defaultFuel index.addons addon.compatibility.requiredDependencies [slug] + k)
      (Nat.le_add_right _ _)
      addon.compatibility.requiredDependencies 0 [slug]
      { resolved := [], alreadyInstalled := [], unresolved := [] }
      (fun d hd => mem_depsUniverse haddon hd)
      (Nat.le_refl _)
    rw [hstab]

end EsoAddonManager
